import Mathlib

/-!
Shallow embedding of the mandelbrot-c repository (mandelbrot.c,
mandelbrot_complex.c, mandelbrot_pthread.c) and proofs about it.

Modelling conventions:
* C `double` arithmetic is embedded as exact rational arithmetic (`ℚ`);
  decimal literals from the source are read exactly into `ℚ`.
* The escape loop `for (iter = 0; iter < max_iter; ++iter)` is embedded as
  fuel recursion; `iter` at loop exit is the number of completed body
  executions, so the C return value `max_iter - iter` is a `Nat` subtraction.
* The pthread work distribution (`global_next_y`, `atomic_fetch_add`) is
  embedded as a small-step state machine driven by an arbitrary schedule: a
  list of worker ids giving the global interleaving order of the atomic
  fetch-and-add operations.  A worker's whole row computation is applied at
  claim time; the row computations of distinct claims touch disjoint buffer
  cells, so this coarse step granularity does not change the final buffer.
-/

/-- Evaluator state loop of `escape_time` (mandelbrot.c lines 55-70 and the
identical `static inline` copy in mandelbrot_pthread.c lines 63-78): with
`fuel` loop iterations remaining and current `z = (zr, zi)`, returns the
number of loop bodies that complete before the `zr2 + zi2 > 4.0` break (or
before the fuel runs out). -/
def escapeSteps (cr ci : ℚ) : Nat → ℚ → ℚ → Nat
  | 0, _, _ => 0
  | fuel + 1, zr, zi =>
    if zr * zr + zi * zi > 4 then 0
    else escapeSteps cr ci fuel (zr * zr - zi * zi + cr) (2 * zr * zi + ci) + 1

/-- `escape_time` of mandelbrot.c: iterate `z <- z^2 + c` from `z = 0` until
the squared magnitude exceeds 4.0 or `max_iter` iterations have run, and
return `max_iter - iter`. -/
def escape_time (cr ci : ℚ) (max_iter : Nat) : Nat :=
  max_iter - escapeSteps cr ci max_iter 0 0

/-- Complex multiplication, as used by `z * z` in mandelbrot_complex.c. -/
def cmul (a b : ℚ × ℚ) : ℚ × ℚ :=
  (a.1 * b.1 - a.2 * b.2, a.1 * b.2 + a.2 * b.1)

/-- Complex addition, as used by `z * z + c` in mandelbrot_complex.c. -/
def cadd (a b : ℚ × ℚ) : ℚ × ℚ :=
  (a.1 + b.1, a.2 + b.2)

/-- Loop of `escape_time` in mandelbrot_complex.c (lines 56-69): the break
test is `creal(z)*creal(z) + cimag(z)*cimag(z) > 4.0` and the body is
`z = z * z + c`. -/
def escapeStepsC (c : ℚ × ℚ) : Nat → ℚ × ℚ → Nat
  | 0, _ => 0
  | fuel + 1, z =>
    if z.1 * z.1 + z.2 * z.2 > 4 then 0
    else escapeStepsC c fuel (cadd (cmul z z) c) + 1

/-- `escape_time` of mandelbrot_complex.c, on a complex argument. -/
def escape_time_complex (c : ℚ × ℚ) (max_iter : Nat) : Nat :=
  max_iter - escapeStepsC c max_iter (0, 0)

/-- Modelled from the spec: the orbit of the reference recurrence
`z <- z^2 + c` started at `z = 0`, written independently of the loop above. -/
def mandelOrbit (cr ci : ℚ) : Nat → ℚ × ℚ
  | 0 => (0, 0)
  | n + 1 =>
    let z := mandelOrbit cr ci n
    (z.1 * z.1 - z.2 * z.2 + cr, 2 * z.1 * z.2 + ci)

/-- Squared magnitude of a complex number represented as a pair. -/
def normSq (z : ℚ × ℚ) : ℚ := z.1 * z.1 + z.2 * z.2

/-- Modelled from the spec: the number of iterations of the reference
recurrence that are performed before the squared magnitude of `z` exceeds
4.0, capped by the budget `m`. -/
def specIterations (cr ci : ℚ) (m : Nat) : Nat :=
  ((List.range m).takeWhile (fun n => decide (normSq (mandelOrbit cr ci n) ≤ 4))).length

lemma escapeSteps_le (cr ci : ℚ) : ∀ (fuel : Nat) (zr zi : ℚ),
    escapeSteps cr ci fuel zr zi ≤ fuel := by
  intro fuel
  induction fuel with
  | zero => intro zr zi; simp [escapeSteps]
  | succ n ih =>
    intro zr zi
    simp only [escapeSteps]
    split
    · exact Nat.zero_le _
    · exact Nat.succ_le_succ (ih _ _)

lemma escapeSteps_orbit (cr ci : ℚ) : ∀ (fuel k : Nat),
    escapeSteps cr ci fuel (mandelOrbit cr ci k).1 (mandelOrbit cr ci k).2 =
      ((List.range' k fuel).takeWhile
        (fun n => decide (normSq (mandelOrbit cr ci n) ≤ 4))).length := by
  intro fuel
  induction fuel with
  | zero => intro k; simp [escapeSteps]
  | succ n ih =>
    intro k
    have hrange : List.range' k (n + 1) = k :: List.range' (k + 1) n :=
      List.range'_succ k n 1
    rw [hrange]
    simp only [escapeSteps, List.takeWhile_cons]
    by_cases h : normSq (mandelOrbit cr ci k) ≤ 4
    · have hnot : ¬ ((mandelOrbit cr ci k).1 * (mandelOrbit cr ci k).1 +
          (mandelOrbit cr ci k).2 * (mandelOrbit cr ci k).2 > 4) := by
        simpa [normSq] using h
      rw [if_neg hnot]
      have hstep : mandelOrbit cr ci (k + 1) =
          ((mandelOrbit cr ci k).1 * (mandelOrbit cr ci k).1 -
            (mandelOrbit cr ci k).2 * (mandelOrbit cr ci k).2 + cr,
           2 * (mandelOrbit cr ci k).1 * (mandelOrbit cr ci k).2 + ci) := by
        simp [mandelOrbit]
      have := ih (k + 1)
      rw [hstep] at this
      simp [h, this]
    · have hgt : (mandelOrbit cr ci k).1 * (mandelOrbit cr ci k).1 +
          (mandelOrbit cr ci k).2 * (mandelOrbit cr ci k).2 > 4 := by
        have := lt_of_not_le h
        simpa [normSq] using this
      rw [if_pos hgt]
      simp [h]

lemma escapeSteps_eq_specIterations (cr ci : ℚ) (m : Nat) :
    escapeSteps cr ci m 0 0 = specIterations cr ci m := by
  have h0 : mandelOrbit cr ci 0 = ((0 : ℚ), (0 : ℚ)) := rfl
  have := escapeSteps_orbit cr ci m 0
  rw [h0] at this
  simpa [specIterations, List.range_eq_range'] using this

lemma takeWhile_length_le {α : Type} (p : α → Bool) :
    ∀ (l : List α), (l.takeWhile p).length ≤ l.length := by
  intro l
  induction l with
  | nil => simp
  | cons a t ih =>
    by_cases h : p a
    · simpa [List.takeWhile_cons, h] using ih
    · simp [List.takeWhile_cons, h]

lemma takeWhile_length_eq_length {α : Type} (p : α → Bool) :
    ∀ (l : List α), (l.takeWhile p).length = l.length ↔ ∀ a ∈ l, p a = true := by
  intro l
  induction l with
  | nil => simp
  | cons a t ih =>
    by_cases h : p a
    · simpa [List.takeWhile_cons, h] using ih
    · simp only [List.takeWhile_cons, h]
      constructor
      · intro hlen
        exfalso
        rw [if_neg (by simp)] at hlen
        simp only [List.length_nil, List.length_cons] at hlen
        omega
      · intro hall
        exact absurd (hall a (by simp)) (by simpa using h)

lemma specIterations_le (cr ci : ℚ) (m : Nat) : specIterations cr ci m ≤ m := by
  have := takeWhile_length_le
    (fun n => decide (normSq (mandelOrbit cr ci n) ≤ 4)) (List.range m)
  simpa [specIterations] using this

lemma specIterations_eq_iff (cr ci : ℚ) (m : Nat) :
    specIterations cr ci m = m ↔ ∀ k < m, normSq (mandelOrbit cr ci k) ≤ 4 := by
  have h := takeWhile_length_eq_length
    (fun n => decide (normSq (mandelOrbit cr ci n) ≤ 4)) (List.range m)
  simp only [List.length_range] at h
  rw [specIterations, h]
  constructor
  · intro hall k hk
    have := hall k (List.mem_range.mpr hk)
    simpa using this
  · intro hall n hn
    simp only [decide_eq_true_eq]
    exact hall n (List.mem_range.mp hn)

/-- C3: `escape_time(cr, ci, max_iter)` is `max_iter` minus the number of
iterations of the reference recurrence `z <- z^2 + c` from `z = 0`, stopping
as soon as the squared magnitude exceeds 4.0 or the budget is exhausted; a
point whose orbit never exceeds squared magnitude 4.0 within the budget
yields 0. -/
theorem escape_time_refines_spec (cr ci : ℚ) (m : Nat) (hm : 1 ≤ m) :
    escape_time cr ci m = m - specIterations cr ci m ∧
      ((∀ k < m, normSq (mandelOrbit cr ci k) ≤ 4) → escape_time cr ci m = 0) := by
  constructor
  · rw [escape_time, escapeSteps_eq_specIterations]
  · intro hnever
    rw [escape_time, escapeSteps_eq_specIterations]
    have : specIterations cr ci m = m := (specIterations_eq_iff cr ci m).mpr hnever
    omega

theorem escape_time_refines_spec_witness :
    (1 ≤ 3 ∧ escape_time 2 2 3 = 3 - specIterations 2 2 3) ∧
      ((∀ k < 3, normSq (mandelOrbit (1/4) (0 : ℚ) k) ≤ 4) →
        escape_time (1/4) 0 3 = 0) :=
  ⟨⟨by norm_num, (escape_time_refines_spec 2 2 3 (by norm_num)).1⟩,
    (escape_time_refines_spec (1/4) 0 3 (by norm_num)).2⟩

/-- C4: the result of `escape_time` always lies in `[0, max_iter]` (the lower
bound holds by the `Nat` result type), and it is `0` exactly when the orbit
never exceeds squared magnitude 4.0 within the first `max_iter` iterations. -/
theorem escape_time_bounds (cr ci : ℚ) (m : Nat) (hm : 1 ≤ m) :
    escape_time cr ci m ≤ m ∧
      (escape_time cr ci m = 0 ↔ ∀ k < m, normSq (mandelOrbit cr ci k) ≤ 4) := by
  constructor
  · exact Nat.sub_le _ _
  · rw [escape_time, escapeSteps_eq_specIterations]
    have hle := specIterations_le cr ci m
    rw [← specIterations_eq_iff cr ci m]
    omega

theorem escape_time_bounds_witness :
    escape_time 2 2 5 ≤ 5 ∧
      (escape_time 2 2 5 = 0 ↔ ∀ k < 5, normSq (mandelOrbit 2 2 k) ≤ 4) :=
  escape_time_bounds 2 2 5 (by norm_num)

/-- C6: the point `c = (2.0, 2.0)` escapes on iteration 1, so
`escape_time(2.0, 2.0, max_iter) = max_iter - 1` for every budget `>= 1`. -/
theorem escape_time_two_two (m : Nat) (hm : 1 ≤ m) :
    escape_time 2 2 m = m - 1 := by
  obtain ⟨f, rfl⟩ : ∃ f, m = f + 1 := ⟨m - 1, by omega⟩
  have hsteps : escapeSteps 2 2 (f + 1) 0 0 = 1 := by
    simp only [escapeSteps]
    rw [if_neg (by norm_num)]
    norm_num
    cases f with
    | zero => simp [escapeSteps]
    | succ g =>
      simp only [escapeSteps]
      rw [if_pos (by norm_num)]
  rw [escape_time, hsteps]

theorem escape_time_two_two_witness : escape_time 2 2 7 = 7 - 1 :=
  escape_time_two_two 7 (by norm_num)

/-- C9: `escape_time` never returns `max_iter` itself: the first magnitude
check sees `z = 0`, so at least one iteration always runs and the result is
at most `max_iter - 1`. -/
theorem escape_time_lt_max (cr ci : ℚ) (m : Nat) (hm : 1 ≤ m) :
    escape_time cr ci m ≤ m - 1 := by
  obtain ⟨f, rfl⟩ : ∃ f, m = f + 1 := ⟨m - 1, by omega⟩
  have h1 : 1 ≤ escapeSteps cr ci (f + 1) 0 0 := by
    simp only [escapeSteps]
    rw [if_neg (by norm_num)]
    omega
  rw [escape_time]
  omega

theorem escape_time_lt_max_witness : escape_time 0 0 4 ≤ 4 - 1 :=
  escape_time_lt_max 0 0 4 (by norm_num)

lemma escapeStepsC_eq (cr ci : ℚ) : ∀ (fuel : Nat) (zr zi : ℚ),
    escapeStepsC (cr, ci) fuel (zr, zi) = escapeSteps cr ci fuel zr zi := by
  intro fuel
  induction fuel with
  | zero => intro zr zi; simp [escapeStepsC, escapeSteps]
  | succ n ih =>
    intro zr zi
    simp only [escapeStepsC, escapeSteps, cmul, cadd]
    split
    · rfl
    · rw [show zr * zi + zi * zr + ci = 2 * zr * zi + ci by ring]
      rw [ih]

/-- C10: the complex-algebra evaluator of mandelbrot_complex.c computes the
same function as the manual real/imaginary evaluator of mandelbrot.c. -/
theorem escape_time_complex_eq (cr ci : ℚ) (m : Nat) :
    escape_time_complex (cr, ci) m = escape_time cr ci m := by
  rw [escape_time_complex, escape_time, escapeStepsC_eq]

/-- Render-time configuration view: grid dimensions and iteration budget as
naturals (the command-line defaults and the claims use positive values), and
viewport bounds as exact rationals. -/
structure RConfig where
  width : Nat
  height : Nat
  ll_x : ℚ
  ll_y : ℚ
  ur_x : ℚ
  ur_y : ℚ
  max_iter : Nat
deriving DecidableEq

/-- Real part of the complex coordinate of pixel column `x`:
`ll_x + x * fwidth / width` with `fwidth = ur_x - ll_x`. -/
def pixelRe (cfg : RConfig) (x : Nat) : ℚ :=
  cfg.ll_x + x * (cfg.ur_x - cfg.ll_x) / cfg.width

/-- Imaginary part of the complex coordinate of pixel row `y`:
`ur_y - y * fheight / height` with `fheight = ur_y - ll_y`. -/
def pixelIm (cfg : RConfig) (y : Nat) : ℚ :=
  cfg.ur_y - y * (cfg.ur_y - cfg.ll_y) / cfg.height

/-- The escape-time value of the pixel at column `x`, row `y`. -/
def pixelValue (cfg : RConfig) (x y : Nat) : Nat :=
  escape_time (pixelRe cfg x) (pixelIm cfg y) cfg.max_iter

/-- The symbol gradient `"MW2a_. "` of `cnt2char`. -/
def symbols : List Char := ['M', 'W', '2', 'a', '_', '.', ' ']

/-- `cnt2char`: maps `value` in `[0, max_iter]` to an index in `[0, ns - 1]`
by `(int)((double)value / max_iter * (ns - 1))` and returns that symbol (the
C cast truncates; for the nonnegative quantities here that is the floor).
The out-of-range default cannot be reached for `value <= max_iter`. -/
def cnt2char (value max_iter : Nat) : Char :=
  symbols.getD
    (Int.toNat ⌊(value : ℚ) / (max_iter : ℚ) * ((symbols.length - 1 : Nat) : ℚ)⌋) '?'

lemma escape_time_le (cr ci : ℚ) (m : Nat) : escape_time cr ci m ≤ m :=
  Nat.sub_le _ _

lemma cnt2char_mem (v m : Nat) (hv : v ≤ m) (hm : 1 ≤ m) :
    cnt2char v m ∈ symbols := by
  have hm0 : (0 : ℚ) < (m : ℚ) := by exact_mod_cast hm
  have hdiv : (v : ℚ) / (m : ℚ) ≤ 1 := by
    rw [div_le_one hm0]; exact_mod_cast hv
  have hq6 : (v : ℚ) / (m : ℚ) * ((symbols.length - 1 : Nat) : ℚ) ≤ 6 := by
    have h6 : ((symbols.length - 1 : Nat) : ℚ) = 6 := by norm_num [symbols]
    rw [h6]
    nlinarith
  have hfl : ⌊(v : ℚ) / (m : ℚ) * ((symbols.length - 1 : Nat) : ℚ)⌋ ≤ 6 := by
    have h1 : (⌊(v : ℚ) / (m : ℚ) * ((symbols.length - 1 : Nat) : ℚ)⌋ : ℚ) ≤ 6 :=
      le_trans (Int.floor_le _) hq6
    exact_mod_cast h1
  have hlt : Int.toNat ⌊(v : ℚ) / (m : ℚ) * ((symbols.length - 1 : Nat) : ℚ)⌋ <
      symbols.length := by
    have : symbols.length = 7 := by norm_num [symbols]
    omega
  rw [cnt2char, List.getD_eq_getElem symbols '?' hlt]
  exact List.getElem_mem hlt

/-- `ascii_output` of mandelbrot.c: one inner list per newline-terminated
output line, rows in top-to-bottom order (`y = 0` first). -/
def ascii_output (cfg : RConfig) : List (List Char) :=
  (List.range cfg.height).map (fun y =>
    (List.range cfg.width).map (fun x => cnt2char (pixelValue cfg x y) cfg.max_iter))

/-- The default configuration of all three `main` functions. -/
def defaultRConfig : RConfig :=
  { width := 100, height := 75, ll_x := -6/5, ll_y := 1/5,
    ur_x := -1, ur_y := 7/20, max_iter := 255 }

/-- C7: with the default configuration in ASCII mode, the output is exactly
75 newline-terminated lines of exactly 100 characters, each character drawn
from the 7-symbol set `"MW2a_. "`. -/
theorem ascii_default_shape :
    (ascii_output defaultRConfig).length = 75 ∧
      ∀ line ∈ ascii_output defaultRConfig,
        line.length = 100 ∧ ∀ c ∈ line, c ∈ symbols := by
  constructor
  · simp [ascii_output, defaultRConfig]
  · intro line hline
    simp only [ascii_output, List.mem_map, List.mem_range] at hline
    obtain ⟨y, _, rfl⟩ := hline
    constructor
    · simp [defaultRConfig]
    · intro c hc
      simp only [List.mem_map, List.mem_range] at hc
      obtain ⟨x, _, rfl⟩ := hc
      exact cnt2char_mem _ _ (escape_time_le _ _ _) (by norm_num [defaultRConfig])

/-- One numeric-mode row of escape-time values, for source row index `y`. -/
def numRow (cfg : RConfig) (y : Nat) : List Nat :=
  (List.range cfg.width).map (fun x => pixelValue cfg x y)

/-- `gptext_output` of mandelbrot.c at the level of integer rows: the loop
`for (y = height; y > 0; --y)` emits the row for `y = height - k` as the
`k`-th output line, i.e. rows appear in bottom-to-top order. -/
def gptext_output (cfg : RConfig) : List (List Nat) :=
  (List.range cfg.height).map (fun k => numRow cfg (cfg.height - k))

/-- The manual integer-to-text conversion of `gptext_output` (faithful for
values below 1000, which covers every value `<= max_iter = 255`). -/
def itoaC (n : Nat) : List Char :=
  if 100 ≤ n then
    [Char.ofNat (48 + n / 100), Char.ofNat (48 + n % 100 / 10), Char.ofNat (48 + n % 100 % 10)]
  else if 10 ≤ n then [Char.ofNat (48 + n / 10), Char.ofNat (48 + n % 10)]
  else [Char.ofNat (48 + n)]

/-- One numeric-mode output line as characters: each pixel value is rendered
by the manual itoa, preceded by `", "` for every column except the first. -/
def gptextLine (cfg : RConfig) (y : Nat) : List Char :=
  ((List.range cfg.width).map (fun x =>
    (if 0 < x then [',', ' '] else []) ++ itoaC (pixelValue cfg x y))).flatten

lemma intercalate_cons_eq {α : Type} (sep : List α) :
    ∀ (l : List (List α)) (a : List α),
      List.intercalate sep (a :: l) = a ++ (l.map (fun b => sep ++ b)).flatten := by
  intro l
  induction l with
  | nil => intro a; simp [List.intercalate, List.intersperse]
  | cons b t ih =>
    intro a
    have hb := ih b
    simp only [List.intercalate, List.intersperse] at hb ⊢
    simp only [List.map_cons, List.flatten_cons]
    rw [hb]
    simp [List.append_assoc]

lemma join_sep_map_eq_intercalate {α : Type} (sep : List α) (g : Nat → List α) :
    ∀ w : Nat,
      ((List.range w).map (fun x => (if 0 < x then sep else []) ++ g x)).flatten =
        List.intercalate sep ((List.range w).map g) := by
  intro w
  cases w with
  | zero => simp [List.intercalate]
  | succ v =>
    rw [List.range_succ_eq_map]
    simp only [List.map_cons, List.map_map, List.flatten_cons]
    rw [intercalate_cons_eq]
    simp [Function.comp_def]

/-- The `png = 1` configuration `width=10 height=10` (other fields default). -/
def gpConfig10 : RConfig :=
  { width := 10, height := 10, ll_x := -6/5, ll_y := 1/5,
    ur_x := -1, ur_y := 7/20, max_iter := 255 }

/-- C5: in numeric-grid mode, rows are emitted bottom-to-top, from source row
`height` down to row `1`; with `width=10 height=10 png=1` the output is
exactly 10 lines of exactly 10 comma-separated integers, all in `[0, 255]`
(the lower bound holds by the `Nat` value type). -/
theorem gptext_output_shape :
    (gptext_output gpConfig10).length = 10 ∧
      (∀ row ∈ gptext_output gpConfig10, row.length = 10 ∧ ∀ v ∈ row, v ≤ 255) ∧
      (∀ k < 10, (gptext_output gpConfig10).getD k [] = numRow gpConfig10 (10 - k)) ∧
      (∀ y, gptextLine gpConfig10 y =
        List.intercalate [',', ' '] ((numRow gpConfig10 y).map itoaC)) := by
  refine ⟨by simp [gptext_output, gpConfig10], ?_, ?_, ?_⟩
  · intro row hrow
    simp only [gptext_output, List.mem_map, List.mem_range] at hrow
    obtain ⟨k, _, rfl⟩ := hrow
    constructor
    · simp [numRow, gpConfig10]
    · intro v hv
      simp only [numRow, List.mem_map, List.mem_range] at hv
      obtain ⟨x, _, rfl⟩ := hv
      exact escape_time_le _ _ _
  · intro k hk
    have hk10 : k < (List.range (10 : Nat)).length := by simpa using hk
    rw [gptext_output]
    rw [show gpConfig10.height = 10 from rfl]
    rw [List.getD_eq_getElem _ _ (by simpa using hk)]
    simp
  · intro y
    rw [gptextLine, numRow, List.map_map]
    exact join_sep_map_eq_intercalate [',', ' '] _ gpConfig10.width

/-- State of the pthread render engine of mandelbrot_pthread.c: the shared
atomic cursor `global_next_y`, a log of completed fetch-and-add claims as
(worker id, returned start index) pairs in global order, and the shared
output buffer.  A worker is stopped once a claim returned an index
`>= height`; the row computation of a claim is applied at claim time (the
rows of distinct claims write disjoint buffer cells). -/
structure RState where
  counter : Nat
  log : List (Nat × Nat)
  buf : Nat → Nat

/-- A worker has stopped if some claim of its returned an index `>= height`
(the `if (y_start >= config->height) break;` exit of `thread_mandelbrot`). -/
def stoppedWorker (height : Nat) (log : List (Nat × Nat)) (i : Nat) : Bool :=
  log.any (fun e => e.1 == i && decide (height ≤ e.2))

/-- A single buffer store `buffer[k] = v`. -/
def writeCell (b : Nat → Nat) (k v : Nat) : Nat → Nat :=
  fun j => if j = k then v else b j

/-- The inner loop of `thread_mandelbrot` for one claimed row `y`: for every
column `x`, store the pixel's escape time at flat offset `y * width + x`. -/
def writeRow (cfg : RConfig) (y : Nat) (b : Nat → Nat) : Nat → Nat :=
  (List.range cfg.width).foldl
    (fun b x => writeCell b (y * cfg.width + x) (pixelValue cfg x y)) b

/-- Initial engine state: cursor 0, no claims, arbitrary (malloc junk)
buffer contents. -/
def initR (buf0 : Nat → Nat) : RState :=
  { counter := 0, log := [], buf := buf0 }

/-- One schedule step: worker `i` performs `atomic_fetch_add(&global_next_y,
CHUNK_SIZE)` with `CHUNK_SIZE = 1`, provided it exists (`i < W`) and has not
stopped.  It receives the pre-increment cursor value; if that value is below
`height` it computes and stores the claimed row. -/
def stepR (cfg : RConfig) (W : Nat) (s : RState) (i : Nat) : RState :=
  if i < W ∧ stoppedWorker cfg.height s.log i = false then
    { counter := s.counter + 1
      log := s.log ++ [(i, s.counter)]
      buf := if s.counter < cfg.height then writeRow cfg s.counter s.buf else s.buf }
  else s

/-- Run the render engine under an arbitrary interleaving `sched` of the
workers' fetch-and-add operations. -/
def runR (cfg : RConfig) (W : Nat) (buf0 : Nat → Nat) (sched : List Nat) : RState :=
  sched.foldl (stepR cfg W) (initR buf0)

/-- The start indices returned by all claims, in global order. -/
def claimedRows (s : RState) : List Nat := s.log.map Prod.snd

/-- A render is complete once every one of the `W` workers has stopped. -/
def allStoppedR (cfg : RConfig) (W : Nat) (s : RState) : Bool :=
  (List.range W).all (stoppedWorker cfg.height s.log)

/-- The buffer obtained by computing rows `0, ..., n-1` in order. -/
def applyRows (cfg : RConfig) (n : Nat) (b : Nat → Nat) : Nat → Nat :=
  (List.range n).foldl (fun b y => writeRow cfg y b) b

lemma foldl_inv {σ α : Type} (f : σ → α → σ) (P : σ → Prop)
    (hstep : ∀ s a, P s → P (f s a)) :
    ∀ (l : List α) (s : σ), P s → P (l.foldl f s) := by
  intro l
  induction l with
  | nil => intro s hs; simpa
  | cons a t ih => intro s hs; exact ih _ (hstep s a hs)

lemma stepR_inv (cfg : RConfig) (W : Nat) (buf0 : Nat → Nat) (s : RState) (i : Nat)
    (hs : s.log.map Prod.snd = List.range s.counter ∧
      s.buf = applyRows cfg (min s.counter cfg.height) buf0) :
    (stepR cfg W s i).log.map Prod.snd = List.range (stepR cfg W s i).counter ∧
      (stepR cfg W s i).buf =
        applyRows cfg (min (stepR cfg W s i).counter cfg.height) buf0 := by
  unfold stepR
  by_cases hc : i < W ∧ stoppedWorker cfg.height s.log i = false
  · rw [if_pos hc]
    constructor
    · show (s.log ++ [(i, s.counter)]).map Prod.snd = List.range (s.counter + 1)
      rw [List.map_append, hs.1, List.range_succ]
      rfl
    · show (if s.counter < cfg.height then writeRow cfg s.counter s.buf else s.buf) =
        applyRows cfg (min (s.counter + 1) cfg.height) buf0
      by_cases hlt : s.counter < cfg.height
      · rw [if_pos hlt, hs.2, Nat.min_eq_left (le_of_lt hlt),
          Nat.min_eq_left (by omega)]
        rw [applyRows, applyRows, List.range_succ, List.foldl_append]
        rfl
      · rw [if_neg hlt, hs.2, Nat.min_eq_right (by omega), Nat.min_eq_right (by omega)]
  · rw [if_neg hc]; exact hs

lemma runR_inv (cfg : RConfig) (W : Nat) (buf0 : Nat → Nat) (sched : List Nat) :
    (runR cfg W buf0 sched).log.map Prod.snd =
        List.range (runR cfg W buf0 sched).counter ∧
      (runR cfg W buf0 sched).buf =
        applyRows cfg (min (runR cfg W buf0 sched).counter cfg.height) buf0 := by
  rw [runR]
  refine foldl_inv (stepR cfg W)
    (fun s => s.log.map Prod.snd = List.range s.counter ∧
      s.buf = applyRows cfg (min s.counter cfg.height) buf0)
    (fun s i hs => stepR_inv cfg W buf0 s i hs) sched (initR buf0) ⟨?_, ?_⟩
  · simp [initR]
  · simp [initR, applyRows]

lemma counter_ge_height (cfg : RConfig) (W : Nat) (buf0 : Nat → Nat)
    (sched : List Nat) (hW : 0 < W)
    (hstop : allStoppedR cfg W (runR cfg W buf0 sched) = true) :
    cfg.height ≤ (runR cfg W buf0 sched).counter := by
  have hlog := (runR_inv cfg W buf0 sched).1
  have h0 : stoppedWorker cfg.height (runR cfg W buf0 sched).log 0 = true := by
    have := List.all_eq_true.mp hstop 0 (List.mem_range.mpr hW)
    simpa using this
  obtain ⟨e, he, hcond⟩ := List.any_eq_true.mp h0
  have hhe : cfg.height ≤ e.2 := by
    have h2 := ((Bool.and_eq_true _ _).mp hcond).2
    exact of_decide_eq_true h2
  have hmem : e.2 ∈ (runR cfg W buf0 sched).log.map Prod.snd :=
    List.mem_map_of_mem Prod.snd he
  rw [hlog] at hmem
  have := List.mem_range.mp hmem
  omega

lemma filter_range_add (h k : Nat) :
    (List.range (h + k)).filter (fun v => decide (v < h)) = List.range h := by
  induction k with
  | zero =>
    refine List.filter_eq_self.mpr ?_
    intro v hv
    exact decide_eq_true (List.mem_range.mp hv)
  | succ j ih =>
    rw [show h + (j + 1) = (h + j) + 1 from rfl, List.range_succ,
      List.filter_append, ih]
    simp

/-- C1: in a complete render with at least one worker, the start indices
returned by the fetch-and-add claims restricted to `[0, height)` are exactly
the rows `0, ..., height - 1`, each claimed exactly once (all returned start
indices are pairwise distinct); no row is double-claimed and none skipped. -/
theorem row_claim_partition (cfg : RConfig) (W : Nat) (buf0 : Nat → Nat)
    (sched : List Nat) (hW : 0 < W)
    (hstop : allStoppedR cfg W (runR cfg W buf0 sched) = true) :
    (claimedRows (runR cfg W buf0 sched)).filter (fun v => decide (v < cfg.height)) =
        List.range cfg.height ∧
      (claimedRows (runR cfg W buf0 sched)).Nodup := by
  have hlog := (runR_inv cfg W buf0 sched).1
  have hge := counter_ge_height cfg W buf0 sched hW hstop
  constructor
  · rw [claimedRows, hlog]
    obtain ⟨k, hk⟩ : ∃ k, (runR cfg W buf0 sched).counter = cfg.height + k :=
      ⟨(runR cfg W buf0 sched).counter - cfg.height, by omega⟩
    rw [hk]
    exact filter_range_add cfg.height k
  · rw [claimedRows, hlog]
    exact (List.nodup_range _)

/-- A tiny concrete render configuration used by the witnesses. -/
def tinyConfig : RConfig :=
  { width := 1, height := 2, ll_x := 0, ll_y := 0, ur_x := 1, ur_y := 1,
    max_iter := 1 }

theorem row_claim_partition_witness :
    (0 < 1 ∧ allStoppedR tinyConfig 1 (runR tinyConfig 1 (fun _ => 0) [0, 0, 0]) = true) ∧
      ((claimedRows (runR tinyConfig 1 (fun _ => 0) [0, 0, 0])).filter
          (fun v => decide (v < tinyConfig.height)) = List.range tinyConfig.height ∧
        (claimedRows (runR tinyConfig 1 (fun _ => 0) [0, 0, 0])).Nodup) :=
  ⟨⟨by decide, by decide⟩,
    row_claim_partition tinyConfig 1 (fun _ => 0) [0, 0, 0] (by decide) (by decide)⟩

lemma foldl_write_pres {α : Type} (F : Nat → (Nat → α) → (Nat → α)) (j : Nat) :
    ∀ (l : List Nat), (∀ y ∈ l, ∀ b, F y b j = b j) →
      ∀ b, (l.foldl (fun b x => F x b) b) j = b j := by
  intro l
  induction l with
  | nil => intro _ b; rfl
  | cons a t ih =>
    intro h b
    rw [List.foldl_cons, ih (fun y hy b => h y (List.mem_cons_of_mem a hy) b) _]
    exact h a (List.mem_cons_self a t) b

lemma foldl_write_eq {α : Type} (F : Nat → (Nat → α) → (Nat → α)) (j : Nat)
    (y : Nat) (v : α) :
    ∀ (l : List Nat), l.Nodup → y ∈ l →
      (∀ b, F y b j = v) →
      (∀ y', y' ∈ l → y' ≠ y → ∀ b, F y' b j = b j) →
      ∀ b, (l.foldl (fun b x => F x b) b) j = v := by
  intro l
  induction l with
  | nil => intro _ hy; exact absurd hy (List.not_mem_nil y)
  | cons a t ih =>
    intro hnd hy hset hpres b
    rw [List.foldl_cons]
    rcases List.mem_cons.mp hy with h | hyt
    · subst h
      have hynott : y ∉ t := (List.nodup_cons.mp hnd).1
      rw [foldl_write_pres F j t
        (fun y' hy' b => hpres y' (List.mem_cons_of_mem _ hy')
          (fun he => hynott (he ▸ hy')) b) _]
      exact hset b
    · exact ih (List.nodup_cons.mp hnd).2 hyt hset
        (fun y' hy' hne b => hpres y' (List.mem_cons_of_mem _ hy') hne b) _

lemma flat_ne (w y y' x x' : Nat) (hx : x < w) (hx' : x' < w) (hne : y' ≠ y) :
    y' * w + x' ≠ y * w + x := by
  rcases Nat.lt_or_ge y' y with h | h
  · have h1 : y' * w + x' < (y' + 1) * w := by rw [Nat.succ_mul]; omega
    have h2 : (y' + 1) * w ≤ y * w := Nat.mul_le_mul_right w (Nat.succ_le_of_lt h)
    omega
  · have hyy : y < y' := lt_of_le_of_ne h (fun he => hne he.symm)
    have h1 : y * w + x < (y + 1) * w := by rw [Nat.succ_mul]; omega
    have h2 : (y + 1) * w ≤ y' * w := Nat.mul_le_mul_right w (Nat.succ_le_of_lt hyy)
    omega

lemma writeRow_at (cfg : RConfig) (y x : Nat) (hx : x < cfg.width) (b : Nat → Nat) :
    writeRow cfg y b (y * cfg.width + x) = pixelValue cfg x y := by
  rw [writeRow]
  refine foldl_write_eq
    (fun x' b => writeCell b (y * cfg.width + x') (pixelValue cfg x' y))
    (y * cfg.width + x) x (pixelValue cfg x y) (List.range cfg.width)
    (List.nodup_range _) (List.mem_range.mpr hx)
    (fun b => by simp [writeCell]) ?_ b
  intro x' hx' hne b
  simp only [writeCell]
  rw [if_neg (fun he => hne (Nat.add_left_cancel he).symm)]

lemma writeRow_ne (cfg : RConfig) (y y' x : Nat) (hx : x < cfg.width)
    (hne : y' ≠ y) (b : Nat → Nat) :
    writeRow cfg y' b (y * cfg.width + x) = b (y * cfg.width + x) := by
  rw [writeRow]
  refine foldl_write_pres _ _ (List.range cfg.width) ?_ b
  intro x' hx' b
  simp only [writeCell]
  rw [if_neg (flat_ne cfg.width y y' x x' hx (List.mem_range.mp hx') hne).symm]

lemma applyRows_at (cfg : RConfig) (b0 : Nat → Nat) (x y : Nat)
    (hx : x < cfg.width) (hy : y < cfg.height) :
    applyRows cfg cfg.height b0 (y * cfg.width + x) = pixelValue cfg x y := by
  rw [applyRows]
  exact foldl_write_eq (fun y' b => writeRow cfg y' b) (y * cfg.width + x) y
    (pixelValue cfg x y) (List.range cfg.height) (List.nodup_range _)
    (List.mem_range.mpr hy)
    (fun b => writeRow_at cfg y x hx b)
    (fun y' _ hne b => writeRow_ne cfg y y' x hx hne b)
    b0

lemma runR_buf_at (cfg : RConfig) (W : Nat) (b0 : Nat → Nat) (sch : List Nat)
    (hW : 0 < W) (hstop : allStoppedR cfg W (runR cfg W b0 sch) = true)
    (y x : Nat) (hy : y < cfg.height) (hx : x < cfg.width) :
    (runR cfg W b0 sch).buf (y * cfg.width + x) = pixelValue cfg x y := by
  have hbuf := (runR_inv cfg W b0 sch).2
  have hge := counter_ge_height cfg W b0 sch hW hstop
  rw [Nat.min_eq_right hge] at hbuf
  rw [hbuf]
  exact applyRows_at cfg b0 x y hx hy

/-- C2: for every viewport and iteration budget, a complete render with 1
worker and a complete render with `N > 1` workers, under any schedules of
row claims, produce the identical pixel grid, and every entry
`buffer[y * width + x]` equals the escape time of the pixel's complex
coordinate regardless of which worker computed which row. -/
theorem render_worker_count_invariance (cfg : RConfig) (N : Nat)
    (b1 b2 : Nat → Nat) (s1 s2 : List Nat) (hN : 1 < N)
    (h1 : allStoppedR cfg 1 (runR cfg 1 b1 s1) = true)
    (h2 : allStoppedR cfg N (runR cfg N b2 s2) = true) :
    ∀ y x, y < cfg.height → x < cfg.width →
      (runR cfg 1 b1 s1).buf (y * cfg.width + x) =
          escape_time (pixelRe cfg x) (pixelIm cfg y) cfg.max_iter ∧
        (runR cfg N b2 s2).buf (y * cfg.width + x) =
          escape_time (pixelRe cfg x) (pixelIm cfg y) cfg.max_iter ∧
        (runR cfg 1 b1 s1).buf (y * cfg.width + x) =
          (runR cfg N b2 s2).buf (y * cfg.width + x) := by
  intro y x hy hx
  have e1 := runR_buf_at cfg 1 b1 s1 (by omega) h1 y x hy hx
  have e2 := runR_buf_at cfg N b2 s2 (by omega) h2 y x hy hx
  exact ⟨e1, e2, by rw [e1, e2]⟩

theorem render_worker_count_invariance_witness :
    (runR tinyConfig 1 (fun _ => 0) [0, 0, 0]).buf (1 * tinyConfig.width + 0) =
        escape_time (pixelRe tinyConfig 0) (pixelIm tinyConfig 1)
          tinyConfig.max_iter ∧
      (runR tinyConfig 2 (fun _ => 0) [0, 1, 0, 1]).buf (1 * tinyConfig.width + 0) =
        escape_time (pixelRe tinyConfig 0) (pixelIm tinyConfig 1)
          tinyConfig.max_iter ∧
      (runR tinyConfig 1 (fun _ => 0) [0, 0, 0]).buf (1 * tinyConfig.width + 0) =
        (runR tinyConfig 2 (fun _ => 0) [0, 1, 0, 1]).buf (1 * tinyConfig.width + 0) :=
  render_worker_count_invariance tinyConfig 2 (fun _ => 0) (fun _ => 0)
    [0, 0, 0] [0, 1, 0, 1] (by decide) (by decide) (by decide) 1 0
    (by decide) (by decide)

/-- The C `Config` struct as defined in all three files: `int` fields are
unbounded integers, `double` fields exact rationals, `bool png`. -/
structure Config where
  width : Int
  height : Int
  png : Bool
  ll_x : ℚ
  ll_y : ℚ
  ur_x : ℚ
  ur_y : ℚ
  max_iter : Int
deriving DecidableEq

/-- Whitespace characters skipped by `atoi`/`atof`. -/
def isSpaceChar (c : Char) : Bool :=
  c == ' ' || c == '\t' || c == '\n' || c == '\x0b' || c == '\x0c' || c == '\r'

/-- Value of the leading run of decimal digits. -/
def digitsVal (s : List Char) : Nat :=
  (s.takeWhile Char.isDigit).foldl (fun a c => a * 10 + (c.toNat - 48)) 0

/-- The C library `atoi`: skip whitespace, optional sign, leading digits
(idealized to unbounded integers; overflow is undefined behaviour in C). -/
def atoi (s : List Char) : Int :=
  let t := s.dropWhile isSpaceChar
  match t with
  | '-' :: r => -(digitsVal r : Int)
  | '+' :: r => (digitsVal r : Int)
  | _ => (digitsVal t : Int)

/-- Magnitude part of `atof` on a plain decimal string: integer digits and
an optional fraction after a decimal point. -/
def atofMag (s : List Char) : ℚ :=
  let ip := s.takeWhile Char.isDigit
  let rest := s.dropWhile Char.isDigit
  let frac : ℚ := match rest with
    | '.' :: r =>
      (r.takeWhile Char.isDigit).foldr (fun c acc => (((c.toNat - 48 : Nat) : ℚ) + acc) / 10) 0
    | _ => 0
  (digitsVal ip : ℚ) + frac

/-- The C library `atof` on the plain decimal forms the program's arguments
use: whitespace, optional sign, digits, optional fraction (exponent and hex
forms are not modelled; no claim exercises them). -/
def atof (s : List Char) : ℚ :=
  let t := s.dropWhile isSpaceChar
  match t with
  | '-' :: r => -(atofMag r)
  | '+' :: r => atofMag r
  | _ => atofMag t

/-- A diagnostic line written to the standard error stream by `parse_arg`. -/
inductive Warn where
  | invalidArg : List Char → Warn
  | unknownParam : List Char → Warn
deriving DecidableEq

/-- The eight parameter names `parse_arg` recognizes. -/
def recognizedKeys : List (List Char) :=
  ["width".toList, "height".toList, "png".toList, "ll_x".toList,
    "ll_y".toList, "ur_x".toList, "ur_y".toList, "max_iter".toList]

/-- `parse_arg` of mandelbrot.c (lines 166-186, identical in the other two
files): `strchr` for the first `'='` splits the argument into key and value;
no `'='` warns and leaves the configuration alone, a recognized key updates
its field, any other key warns and leaves the configuration alone.  The
function is total: it always returns, so processing continues with the
remaining arguments. -/
def parse_arg (arg : List Char) (cfg : Config) : Config × List Warn :=
  if '=' ∈ arg then
    let key := arg.takeWhile (fun c => c ≠ '=')
    let value := (arg.dropWhile (fun c => c ≠ '=')).drop 1
    if key = "width".toList then ({ cfg with width := atoi value }, [])
    else if key = "height".toList then ({ cfg with height := atoi value }, [])
    else if key = "png".toList then ({ cfg with png := decide (atoi value ≠ 0) }, [])
    else if key = "ll_x".toList then ({ cfg with ll_x := atof value }, [])
    else if key = "ll_y".toList then ({ cfg with ll_y := atof value }, [])
    else if key = "ur_x".toList then ({ cfg with ur_x := atof value }, [])
    else if key = "ur_y".toList then ({ cfg with ur_y := atof value }, [])
    else if key = "max_iter".toList then ({ cfg with max_iter := atoi value }, [])
    else (cfg, [Warn.unknownParam key])
  else (cfg, [Warn.invalidArg arg])

/-- C8: an argument without `'='`, or whose key before the first `'='` is
not one of the eight recognized names, produces a warning on the diagnostic
stream, leaves every configuration field unchanged, and returns normally. -/
theorem parse_arg_bad_arg (arg : List Char) (cfg : Config)
    (h : '=' ∉ arg ∨ arg.takeWhile (fun c => c ≠ '=') ∉ recognizedKeys) :
    (parse_arg arg cfg).1 = cfg ∧ (parse_arg arg cfg).2 ≠ [] := by
  by_cases heq : '=' ∈ arg
  · have hkey : arg.takeWhile (fun c => c ≠ '=') ∉ recognizedKeys := by
      rcases h with h | h
      · exact absurd heq h
      · exact h
    simp only [recognizedKeys, List.mem_cons, List.not_mem_nil, or_false,
      not_or] at hkey
    obtain ⟨h1, h2, h3, h4, h5, h6, h7, h8⟩ := hkey
    rw [parse_arg, if_pos heq]
    simp at h1 h2 h3 h4 h5 h6 h7 h8
    simp [h1, h2, h3, h4, h5, h6, h7, h8]
  · rw [parse_arg, if_neg heq]
    exact ⟨rfl, by simp⟩

theorem parse_arg_bad_arg_witness :
    ('=' ∉ "foo".toList ∨
        ("foo".toList).takeWhile (fun c => c ≠ '=') ∉ recognizedKeys) ∧
      (parse_arg ("foo".toList)
          { width := 100, height := 75, png := false, ll_x := -6/5, ll_y := 1/5,
            ur_x := -1, ur_y := 7/20, max_iter := 255 }).1 =
        { width := 100, height := 75, png := false, ll_x := -6/5, ll_y := 1/5,
          ur_x := -1, ur_y := 7/20, max_iter := 255 } ∧
      (parse_arg ("foo".toList)
          { width := 100, height := 75, png := false, ll_x := -6/5, ll_y := 1/5,
            ur_x := -1, ur_y := 7/20, max_iter := 255 }).2 ≠ [] :=
  ⟨by decide,
    (parse_arg_bad_arg ("foo".toList) _ (by decide)).1,
    (parse_arg_bad_arg ("foo".toList) _ (by decide)).2⟩
